import Mathlib

/-!
Verification of the `pi_atom` string-interning pool (`src/lib.rs`).

The crate keeps a process-wide pool `ATOM_MAP : DashMap<SmolStr, Share<(SmolStr, Usize)>>`
mapping string content to a shared entry `(text, precomputed hash)`, plus a secondary
weak table `HASH_MAP : DashMap<Usize, ShareWeak<(SmolStr, Usize)>>` from hash values to
non-owning entry references.  A `Atom` handle wraps one `Share` (an atomically
reference-counted pointer) to an entry.

Shallow embedding used here:
* An entry is identified by a numeric id (allocation identity of the `Share`).
  Its record keeps the immutable `(text, hash)` payload together with the strong
  reference count, split by where the references currently stand:
  `live` handles, handles whose `drop` passed the optimistic strong-count check and
  is waiting for the `remove_if` shard lock (`plock`), and handles whose `drop` has
  finished its map work and only still holds its strong reference until the final
  decrement (`pdec`).  Records of dead entries stay around with all counters zero,
  mirroring how weak references keep observing a deallocated `Arc` allocation.
* `PState` carries the entry records, the pool map `ATOM_MAP` (content -> entry id)
  and the weak table `HASH_MAP` (hash -> entry id).
* The hash algorithm (`fxhash`/`twox_hash` behind `CurHasher`) is an external
  collaborator of the crate; it enters only through `str_hash` in `Atom::create`.
  All definitions are therefore parameterised by a pluggable `hf : String → Nat`.
* The `lookup_by_hash` feature is taken as enabled, so `Atom::create` and
  `Drop for Atom` include their `HASH_MAP` maintenance.
-/

namespace PiAtom

/-- Pointwise update of a function map, used for `DashMap` insert/remove. -/
def fupd {α β : Type} [DecidableEq α] (f : α → β) (k : α) (v : β) : α → β :=
  fun x => if x = k then v else f x

/-- One pooled entry: the immutable `(SmolStr, Usize)` payload of the `Share`,
plus its strong-reference count split by handle state (see module comment).
The `Share` stored inside `ATOM_MAP` is accounted separately, from pool membership. -/
structure Entry where
  text : String
  hash : Nat
  live : Nat
  plock : Nat
  pdec : Nat
deriving DecidableEq

/-- A `Atom` handle: the id of the entry its `Share` points to, together with that
entry's immutable payload (the payload is immutable and shared, so the handle can
carry a snapshot of it). -/
structure Atom where
  id : Nat
  text : String
  hash : Nat
deriving DecidableEq

/-- The process-wide state: entry records by id, `ATOM_MAP` (content to entry id),
`HASH_MAP` (hash to entry id of the weak reference), and the next fresh id. -/
structure PState where
  entries : Nat → Option Entry
  pool : String → Option Nat
  hmap : Nat → Option Nat
  next : Nat

/-- The empty pool at process start. -/
def initState : PState :=
  { entries := fun _ => none, pool := fun _ => none, hmap := fun _ => none, next := 0 }

/-- Strong reference count of entry `e`: every handle (in whatever drop stage it is,
it still holds its `Share` until the final decrement) plus the `Share` kept by
`ATOM_MAP` while the entry is pooled.  A record that does not exist counts 0, as does
a dead record: `ShareWeak::upgrade` and `strong_count` observe exactly this number. -/
def strongAt (σ : PState) (e : Nat) : Nat :=
  match σ.entries e with
  | none => 0
  | some ent => ent.live + ent.plock + ent.pdec + (if σ.pool ent.text = some e then 1 else 0)

/-- Model of `Atom::create`: `ATOM_MAP.entry(s)` either clones the occupied entry's `Share`
(one more strong reference) or allocates a fresh entry `(s, str_hash(s))`, inserts it
into `ATOM_MAP` and (feature `lookup_by_hash`) registers a weak record in `HASH_MAP`
under the fresh hash.  `hf` is the pluggable hashing utility `str_hash`. -/
def Atom.create (hf : String → Nat) (σ : PState) (s : String) : PState × Atom :=
  match σ.pool s with
  | some e =>
    match σ.entries e with
    | some ent =>
      ({ σ with entries := fupd σ.entries e (some { ent with live := ent.live + 1 }) },
       { id := e, text := ent.text, hash := ent.hash })
    | none => (σ, { id := e, text := s, hash := hf s })
  | none =>
    let h := hf s
    ({ entries := fupd σ.entries σ.next (some { text := s, hash := h, live := 1, plock := 0, pdec := 0 }),
       pool := fupd σ.pool s (some σ.next),
       hmap := fupd σ.hmap h (some σ.next),
       next := σ.next + 1 },
     { id := σ.next, text := s, hash := h })

/-- Model of `Atom::as_str`: the text of the pointed-to entry. -/
def Atom.as_str (a : Atom) : String := a.text

/-- Model of `Atom::str_hash`: the cached hash field `self.0.1`. -/
def Atom.str_hash (a : Atom) : Nat := a.hash

/-- The source's `impl Hash for Atom` writes exactly the cached hash field into the hasher;
the value a hashed container observes is therefore the cached field itself. -/
def Atom.hashValue (a : Atom) : Nat := a.hash

/-- The derived `PartialEq` on `Atom` compares the two `Share<(SmolStr, Usize)>` by
the value of the pointed-to pair: texts and cached hashes must both agree. -/
def Atom.eqv (a b : Atom) : Prop := a.text = b.text ∧ a.hash = b.hash

instance : DecidablePred fun p : Atom × Atom => p.1.eqv p.2 := by
  intro p; unfold Atom.eqv; infer_instance

/-- Derived default handle: the source's derive of `Default` on `Atom(Share<(SmolStr, Usize)>)` builds
`Share::new((SmolStr::default(), 0))`: a fresh allocation holding the empty string
and hash field `0`, touching neither `ATOM_MAP` nor the hashing utility.  The
allocation is fresh and never pooled; its id is irrelevant to the derived equality. -/
def Atom.defaultAtom : Atom := { id := 0, text := "", hash := 0 }

/-- Model of `get_by_hash`: `HASH_MAP.get(&hash)` followed by `ShareWeak::upgrade`, which
succeeds exactly when the strong count is still positive and then yields one more
strong reference (a new live handle). -/
def get_by_hash (σ : PState) (h : Nat) : PState × Option Atom :=
  match σ.hmap h with
  | none => (σ, none)
  | some e =>
    match σ.entries e with
    | none => (σ, none)
    | some ent =>
      if 0 < strongAt σ e then
        ({ σ with entries := fupd σ.entries e (some { ent with live := ent.live + 1 }) },
         some { id := e, text := ent.text, hash := ent.hash })
      else (σ, none)

/-- Model of `store_weak_by_hash`: `HASH_MAP.insert(atom.0.1, downgrade(&atom.0))` registers
the weak record under the handle's cached hash field, replacing any previous record. -/
def store_weak_by_hash (σ : PState) (a : Atom) : PState :=
  { σ with hmap := fupd σ.hmap a.hash (some a.id) }

/-- Model of `collect`: `HASH_MAP.retain(|_, v| v.strong_count() > 0)` keeps exactly the
records whose weak reference still sees a positive strong count. -/
def collect (σ : PState) : PState :=
  { σ with hmap := fun h =>
      match σ.hmap h with
      | none => none
      | some e => if 0 < strongAt σ e then some e else none }

/-- Well-formedness of the pool map, maintained by `Atom::create`: every `ATOM_MAP`
record maps a key `s` to a live record whose payload is `(s, str_hash(s))`. -/
def WF (hf : String → Nat) (σ : PState) : Prop :=
  ∀ s e, σ.pool s = some e →
    ∃ ent, σ.entries e = some ent ∧ ent.text = s ∧ ent.hash = hf s

theorem WF_initState (hf : String → Nat) : WF hf initState := by
  intro s e h
  simp [initState] at h

/-- Serialization: `impl Encode for Atom` writes `(*self.0).0.as_str().to_string()` into the bon
buffer, i.e. the serialized payload is exactly the handle's text. -/
def encodeAtom (a : Atom) : String := a.text

/-- Deserialization: `impl Decode for Atom` reads a `String` back from the buffer and builds
`Atom::from(...)`, which is `Atom::new`, which is `Atom::create` on that text. -/
def decodeAtom (hf : String → Nat) (σ : PState) (p : String) : PState × Atom :=
  Atom.create hf σ p

/-- UTF-8 decoding with exactly the validity ranges enforced by
`core::str::from_utf8`: ASCII bytes; C2..DF lead bytes with one continuation;
E0..EF with two continuations (E0 requires A0..BF first, ED allows only 80..9F,
excluding surrogates); F0..F4 with three continuations (F0 requires 90..BF first,
F4 allows only 80..8F); anything else is invalid. -/
def utf8Decode : List Nat → Option (List Char)
  | [] => some []
  | b :: rest =>
    if b < 0x80 then
      (utf8Decode rest).map (fun cs => Char.ofNat b :: cs)
    else if b < 0xC2 then none
    else if b < 0xE0 then
      match rest with
      | [] => none
      | b1 :: rest1 =>
        if 0x80 ≤ b1 ∧ b1 < 0xC0 then
          (utf8Decode rest1).map (fun cs =>
            Char.ofNat ((b - 0xC0) * 64 + (b1 - 0x80)) :: cs)
        else none
    else if b < 0xF0 then
      match rest with
      | b1 :: b2 :: rest2 =>
        if (if b = 0xE0 then 0xA0 else 0x80) ≤ b1 ∧
            b1 < (if b = 0xED then 0xA0 else 0xC0) ∧
            0x80 ≤ b2 ∧ b2 < 0xC0 then
          (utf8Decode rest2).map (fun cs =>
            Char.ofNat ((b - 0xE0) * 4096 + (b1 - 0x80) * 64 + (b2 - 0x80)) :: cs)
        else none
      | _ => none
    else if b < 0xF5 then
      match rest with
      | b1 :: b2 :: b3 :: rest3 =>
        if (if b = 0xF0 then 0x90 else 0x80) ≤ b1 ∧
            b1 < (if b = 0xF4 then 0x90 else 0xC0) ∧
            0x80 ≤ b2 ∧ b2 < 0xC0 ∧ 0x80 ≤ b3 ∧ b3 < 0xC0 then
          (utf8Decode rest3).map (fun cs =>
            Char.ofNat ((b - 0xF0) * 262144 + (b1 - 0x80) * 4096 + (b2 - 0x80) * 64 + (b3 - 0x80)) :: cs)
        else none
      | _ => none
    else none

/-- Conversion from raw bytes: `impl From<&[u8]> for Atom` runs `Atom::new(core::str::from_utf8(s).unwrap())`.
On bytes that are not valid UTF-8 the `unwrap` panics and no `Atom` is produced:
that diverging path is modelled as `none`; a successful validation interns the
decoded text through `Atom::create`. -/
def atomFromBytes (hf : String → Nat) (σ : PState) (bs : List Nat) :
    Option (PState × Atom) :=
  (utf8Decode bs).map (fun cs => Atom.create hf σ (String.mk cs))

/-- C1: for every text `s`, `Atom::create(s)` returns a handle whose `as_str`
equals `s` (under the pool-map well-formedness that `create` itself maintains:
each `ATOM_MAP` record's payload text equals its key). -/
theorem create_returns_input_text (hf : String → Nat) (σ : PState) (s : String)
    (hwf : WF hf σ) : ((Atom.create hf σ s).2).as_str = s := by
  cases hp : σ.pool s with
  | none => simp [Atom.create, hp, Atom.as_str]
  | some e =>
    obtain ⟨ent, he, ht, _⟩ := hwf s e hp
    simp [Atom.create, hp, he, Atom.as_str, ht]

/-- C2: for handles whose cached hash is the hash of their text (true of every
handle produced by the pool), the derived equality holds iff the texts are equal;
and `create(s)` called twice yields two handles that compare equal and report
equal text. -/
theorem handles_equal_iff_equal_text (hf : String → Nat) (σ : PState) (s : String)
    (a b : Atom) (ha : a.hash = hf a.text) (hb : b.hash = hf b.text)
    (hwf : WF hf σ) :
    (a.eqv b ↔ a.text = b.text) ∧
    ((Atom.create hf σ s).2).eqv ((Atom.create hf (Atom.create hf σ s).1 s).2) ∧
    ((Atom.create hf σ s).2).as_str = ((Atom.create hf (Atom.create hf σ s).1 s).2).as_str := by
  refine ⟨⟨fun h => h.1, fun h => ⟨h, by rw [ha, hb, h]⟩⟩, ?_⟩
  cases hp : σ.pool s with
  | none =>
    simp [Atom.create, hp, fupd, Atom.eqv, Atom.as_str]
  | some e =>
    obtain ⟨ent, he, ht, hh⟩ := hwf s e hp
    simp [Atom.create, hp, he, fupd, Atom.eqv, Atom.as_str]

/-- C3: `get_by_hash(h)` returns a handle only when a `HASH_MAP` record for `h`
exists and its entry still has a positive strong count (the weak upgrade), and it
returns nothing when the record is absent or the entry is destroyed — it never
returns a handle to a destroyed entry. -/
theorem get_by_hash_live_only (σ : PState) (h : Nat) :
    (∀ a, (get_by_hash σ h).2 = some a → σ.hmap h = some a.id ∧ 0 < strongAt σ a.id) ∧
    (σ.hmap h = none → (get_by_hash σ h).2 = none) ∧
    (∀ e, σ.hmap h = some e → strongAt σ e = 0 → (get_by_hash σ h).2 = none) := by
  refine ⟨?_, ?_, ?_⟩
  · intro a hsome
    cases hm : σ.hmap h with
    | none => simp [get_by_hash, hm] at hsome
    | some e =>
      cases he : σ.entries e with
      | none => simp [get_by_hash, hm, he] at hsome
      | some ent =>
        by_cases hs : 0 < strongAt σ e
        · simp [get_by_hash, hm, he, hs] at hsome
          subst hsome
          exact ⟨rfl, hs⟩
        · simp [get_by_hash, hm, he, hs] at hsome
  · intro hm; simp [get_by_hash, hm]
  · intro e hm hdead
    cases he : σ.entries e with
    | none => simp [get_by_hash, hm, he]
    | some ent => simp [get_by_hash, hm, he, hdead]

/-- C5: after `collect()`, every remaining `HASH_MAP` record resolves to an entry
with positive strong count; consequently, when the record under `hash_of(s)` was
absent or its entry dead (all handles released), `get_by_hash(hash_of(s))` after
`collect()` returns nothing. -/
theorem collect_purges_dead_records (hf : String → Nat) (σ : PState) (s : String) :
    (∀ h e, (collect σ).hmap h = some e → 0 < strongAt (collect σ) e) ∧
    ((σ.hmap (hf s) = none ∨ ∃ e, σ.hmap (hf s) = some e ∧ strongAt σ e = 0) →
      (get_by_hash (collect σ) (hf s)).2 = none) := by
  have hsa : ∀ e, strongAt (collect σ) e = strongAt σ e := fun _ => rfl
  constructor
  · intro h e hc
    rw [hsa]
    cases hm : σ.hmap h with
    | none => simp [collect, hm] at hc
    | some e' =>
      by_cases hs : 0 < strongAt σ e'
      · simp [collect, hm, hs] at hc
        rwa [← hc]
      · simp [collect, hm, hs] at hc
  · intro hyp
    have hnone : (collect σ).hmap (hf s) = none := by
      rcases hyp with hm | ⟨e, hm, hdead⟩
      · simp [collect, hm]
      · simp [collect, hm, hdead]
    simp [get_by_hash, hnone]

/-- C6: `store_weak_by_hash(a)` installs the record for `a`'s entry under `a`'s
cached hash, whatever record (for possibly different content) was there before,
and leaves every other hash slot and the rest of the state untouched. -/
theorem store_weak_keys_cached_hash (σ : PState) (a : Atom) :
    (store_weak_by_hash σ a).hmap a.hash = some a.id ∧
    (∀ h, h ≠ a.hash → (store_weak_by_hash σ a).hmap h = σ.hmap h) ∧
    (store_weak_by_hash σ a).entries = σ.entries ∧
    (store_weak_by_hash σ a).pool = σ.pool := by
  refine ⟨by simp [store_weak_by_hash, fupd], fun h hne => ?_, rfl, rfl⟩
  simp [store_weak_by_hash, fupd, hne]

/-- C7: a handle serializes as exactly its plain text, and decoding interns the
text via `Atom::create`; for any pool-consistent handle the round trip yields a
handle that compares equal to the original. -/
theorem serialize_roundtrip (hf : String → Nat) (σ : PState) (a : Atom)
    (hwf : WF hf σ) (ha : a.hash = hf a.text) :
    encodeAtom a = a.as_str ∧ ((decodeAtom hf σ (encodeAtom a)).2).eqv a := by
  refine ⟨rfl, ?_⟩
  cases hp : σ.pool a.text with
  | none =>
    simp [decodeAtom, encodeAtom, Atom.create, hp, Atom.eqv, ha]
  | some e =>
    obtain ⟨ent, he, ht, hh⟩ := hwf a.text e hp
    simp [decodeAtom, encodeAtom, Atom.create, hp, he, Atom.eqv, ht, hh, ha]

/-- C9: when `create(s)` takes the vacant branch (content not pooled), it also
registers the `HASH_MAP` record (feature `lookup_by_hash`), so an immediately
following `get_by_hash(hash_of(s))` returns a handle for `s` even though
`store_weak_by_hash` was never called. -/
theorem create_registers_hash_record (hf : String → Nat) (σ : PState) (s : String)
    (hp : σ.pool s = none) :
    (get_by_hash (Atom.create hf σ s).1 (hf s)).2
      = some { id := σ.next, text := s, hash := hf s } := by
  simp [Atom.create, hp, get_by_hash, fupd, strongAt]

/-- C10: the derived `Default` handle carries empty text and cached hash `0`,
built without consulting the pool or the hashing utility; whenever
`hash_of("") ≠ 0` it compares unequal to `create("")` and reports a different
hash, despite equal text. -/
theorem default_atom_anomaly (hf : String → Nat) (σ : PState)
    (hwf : WF hf σ) (h0 : hf "" ≠ 0) :
    Atom.defaultAtom.text = "" ∧ Atom.defaultAtom.hash = 0 ∧
    Atom.defaultAtom.as_str = ((Atom.create hf σ "").2).as_str ∧
    ¬ Atom.defaultAtom.eqv ((Atom.create hf σ "").2) ∧
    Atom.defaultAtom.hashValue ≠ ((Atom.create hf σ "").2).hashValue := by
  cases hp : σ.pool "" with
  | none =>
    refine ⟨rfl, rfl, ?_, ?_, ?_⟩
    · simp [Atom.create, hp, Atom.as_str, Atom.defaultAtom]
    · intro hcontra
      simp [Atom.create, hp, Atom.eqv, Atom.defaultAtom] at hcontra
      omega
    · intro hcontra
      simp [Atom.create, hp, Atom.hashValue, Atom.defaultAtom] at hcontra
      omega
  | some e =>
    obtain ⟨ent, he, ht, hh⟩ := hwf "" e hp
    refine ⟨rfl, rfl, ?_, ?_, ?_⟩
    · simp [Atom.create, hp, he, Atom.as_str, Atom.defaultAtom, ht]
    · intro hcontra
      simp [Atom.create, hp, he, Atom.eqv, Atom.defaultAtom, ht, hh] at hcontra
      omega
    · intro hcontra
      simp [Atom.create, hp, he, Atom.hashValue, Atom.defaultAtom, hh] at hcontra
      omega

/-- C4: the byte sequence `[0xFF]` is not valid UTF-8, and on it the
`From<&[u8]>` conversion produces no result at all — `from_utf8(..).unwrap()`
panics (modelled as `none`) instead of surfacing an explicit failure result to
the caller as the specification demands. -/
theorem from_bytes_panics_on_invalid_utf8 :
    utf8Decode [255] = none ∧
    ∀ (hf : String → Nat) (σ : PState), atomFromBytes hf σ [255] = none := by
  refine ⟨by decide, fun hf σ => ?_⟩
  have h : utf8Decode [255] = none := by decide
  simp [atomFromBytes, h]

/-- One atomic action of the concurrent lifecycle protocol, at the atomicity
granularity of the source: `Atom::create` holds the `ATOM_MAP` shard lock for its
whole entry(s) match, `Clone` is a single atomic increment, and `Drop for Atom`
decomposes into (1) the optimistic `strong_count` read deciding between the early
return and the removal attempt, (2) the `remove_if` critical section that re-reads
the count under the shard lock and unlinks the entry from `ATOM_MAP` and
`HASH_MAP` only if the count is still at the zero-transition value, and (3) the
final strong-count decrement when the handle's `Share` is dropped. -/
inductive Step (hf : String → Nat) : PState → PState → Prop
  | createOld (σ : PState) (s : String) (e : Nat) (ent : Entry)
      (hp : σ.pool s = some e) (he : σ.entries e = some ent) :
      Step hf σ { σ with entries := fupd σ.entries e (some { ent with live := ent.live + 1 }) }
  | createNew (σ : PState) (s : String) (hp : σ.pool s = none) :
      Step hf σ
        { entries := fupd σ.entries σ.next (some { text := s, hash := hf s, live := 1, plock := 0, pdec := 0 }),
          pool := fupd σ.pool s (some σ.next),
          hmap := fupd σ.hmap (hf s) (some σ.next),
          next := σ.next + 1 }
  | cloneHandle (σ : PState) (e : Nat) (ent : Entry)
      (he : σ.entries e = some ent) (hl : 1 ≤ ent.live) :
      Step hf σ { σ with entries := fupd σ.entries e (some { ent with live := ent.live + 1 }) }
  | dropReadFast (σ : PState) (e : Nat) (ent : Entry)
      (he : σ.entries e = some ent) (hl : 1 ≤ ent.live) (hs : 2 < strongAt σ e) :
      Step hf σ { σ with
        entries := fupd σ.entries e (some { ent with live := ent.live - 1, pdec := ent.pdec + 1 }) }
  | dropReadSlow (σ : PState) (e : Nat) (ent : Entry)
      (he : σ.entries e = some ent) (hl : 1 ≤ ent.live) (hs : strongAt σ e ≤ 2) :
      Step hf σ { σ with
        entries := fupd σ.entries e (some { ent with live := ent.live - 1, plock := ent.plock + 1 }) }
  | dropLockAbandon (σ : PState) (e : Nat) (ent : Entry)
      (he : σ.entries e = some ent) (hl : 1 ≤ ent.plock) (hs : 2 < strongAt σ e) :
      Step hf σ { σ with
        entries := fupd σ.entries e (some { ent with plock := ent.plock - 1, pdec := ent.pdec + 1 }) }
  | dropLockRemove (σ : PState) (e : Nat) (ent : Entry)
      (he : σ.entries e = some ent) (hl : 1 ≤ ent.plock) (hs : strongAt σ e ≤ 2) :
      Step hf σ
        { entries := fupd σ.entries e (some { ent with plock := ent.plock - 1, pdec := ent.pdec + 1 }),
          pool := fupd σ.pool ent.text none,
          hmap := fupd σ.hmap ent.hash none,
          next := σ.next }
  | dropDec (σ : PState) (e : Nat) (ent : Entry)
      (he : σ.entries e = some ent) (hl : 1 ≤ ent.pdec) :
      Step hf σ { σ with
        entries := fupd σ.entries e (some { ent with pdec := ent.pdec - 1 }) }

/-- States reachable from the empty pool by interleaved create/clone/release
actions of arbitrarily many threads. -/
def Reach (hf : String → Nat) (σ : PState) : Prop :=
  Relation.ReflTransGen (Step hf) initState σ

/-- The inductive invariant of the lifecycle protocol: every entry with a live
handle is pooled under its text, every pool record is well formed, at most one
release per entry can be inside the `remove_if` window (and while one is, the
entry is still pooled), and ids at or beyond `next` are unallocated. -/
structure Inv (hf : String → Nat) (σ : PState) : Prop where
  liveInPool : ∀ e ent, σ.entries e = some ent → 0 < ent.live → σ.pool ent.text = some e
  poolWF : WF hf σ
  plockInPool : ∀ e ent, σ.entries e = some ent →
    ent.plock ≤ 1 ∧ (ent.plock = 1 → σ.pool ent.text = some e)
  fresh : ∀ e, σ.next ≤ e → σ.entries e = none

theorem Inv_initState (hf : String → Nat) : Inv hf initState := by
  refine ⟨?_, WF_initState hf, ?_, ?_⟩
  · intro e ent h; simp [initState] at h
  · intro e ent h; simp [initState] at h
  · intro e _; rfl

theorem strongAt_eq (σ : PState) (e : Nat) (ent : Entry) (he : σ.entries e = some ent) :
    strongAt σ e
      = ent.live + ent.plock + ent.pdec + (if σ.pool ent.text = some e then 1 else 0) := by
  simp [strongAt, he]

theorem WF_counterUpdate {hf : String → Nat} {σ : PState} {e : Nat} {ent ent' : Entry}
    (he : σ.entries e = some ent) (ht : ent'.text = ent.text) (hh : ent'.hash = ent.hash)
    (hwf : WF hf σ) :
    WF hf { σ with entries := fupd σ.entries e (some ent') } := by
  intro s2 e2 hp2
  obtain ⟨ent2, he2, ht2, hh2⟩ := hwf s2 e2 hp2
  by_cases hee : e2 = e
  · subst hee
    have h2 : ent2 = ent := by rw [he] at he2; exact (Option.some.inj he2).symm
    refine ⟨ent', by simp [fupd], ?_, ?_⟩
    · rw [ht, ← h2]; exact ht2
    · rw [hh, ← h2]; exact hh2
  · exact ⟨ent2, by simpa [fupd, hee] using he2, ht2, hh2⟩

theorem fresh_update {σ : PState} {e : Nat} {v : Option Entry}
    (he : σ.entries e ≠ none) (hfr : ∀ e2, σ.next ≤ e2 → σ.entries e2 = none) :
    ∀ e2, σ.next ≤ e2 → fupd σ.entries e v e2 = none := by
  intro e2 h2
  have hne : e2 ≠ e := fun hEq => he (hEq ▸ hfr e2 h2)
  simp [fupd, hne, hfr e2 h2]

theorem inv_step (hf : String → Nat) (σ σ' : PState) (hinv : Inv hf σ)
    (hst : Step hf σ σ') : Inv hf σ' := by
  cases hst with
  | createOld s e ent hp he =>
    obtain ⟨ent0, he0, ht0, hh0⟩ := hinv.poolWF s e hp
    have h1 : ent = ent0 := by rw [he] at he0; exact Option.some.inj he0
    have htxt : ent.text = s := by rw [h1]; exact ht0
    refine ⟨?_, WF_counterUpdate he rfl rfl hinv.poolWF, ?_, fresh_update (by simp [he]) hinv.fresh⟩
    · intro e2 ent2 he2 hl2
      replace he2 : fupd σ.entries e (some { ent with live := ent.live + 1 }) e2 = some ent2 := he2
      by_cases hee : e2 = e
      · subst hee
        simp [fupd] at he2
        subst he2
        show σ.pool ent.text = some e2
        rw [htxt]; exact hp
      · simp [fupd, hee] at he2
        exact hinv.liveInPool e2 ent2 he2 hl2
    · intro e2 ent2 he2
      replace he2 : fupd σ.entries e (some { ent with live := ent.live + 1 }) e2 = some ent2 := he2
      by_cases hee : e2 = e
      · subst hee
        simp [fupd] at he2
        subst he2
        obtain ⟨hle, hone⟩ := hinv.plockInPool e2 ent he
        exact ⟨hle, fun hone1 => hone hone1⟩
      · simp [fupd, hee] at he2
        exact hinv.plockInPool e2 ent2 he2
  | createNew s hp =>
    refine ⟨?_, ?_, ?_, ?_⟩
    · intro e2 ent2 he2 hl2
      replace he2 : fupd σ.entries σ.next
          (some { text := s, hash := hf s, live := 1, plock := 0, pdec := 0 }) e2 = some ent2 := he2
      by_cases hee : e2 = σ.next
      · subst hee
        simp [fupd] at he2
        subst he2
        show fupd σ.pool s (some σ.next) s = some σ.next
        simp [fupd]
      · simp [fupd, hee] at he2
        have hpool2 := hinv.liveInPool e2 ent2 he2 hl2
        show fupd σ.pool s (some σ.next) ent2.text = some e2
        by_cases hts : ent2.text = s
        · rw [hts] at hpool2; rw [hp] at hpool2; exact Option.noConfusion hpool2
        · simpa [fupd, hts] using hpool2
    · intro s2 e2 hp2
      replace hp2 : fupd σ.pool s (some σ.next) s2 = some e2 := hp2
      by_cases hss : s2 = s
      · subst hss
        simp [fupd] at hp2
        subst hp2
        exact ⟨{ text := s2, hash := hf s2, live := 1, plock := 0, pdec := 0 }, by simp [fupd], rfl, rfl⟩
      · simp [fupd, hss] at hp2
        obtain ⟨ent2, he2, ht2, hh2⟩ := hinv.poolWF s2 e2 hp2
        have hee : e2 ≠ σ.next := by
          intro hEq
          rw [hEq, hinv.fresh σ.next le_rfl] at he2
          exact Option.noConfusion he2
        exact ⟨ent2, by simpa [fupd, hee] using he2, ht2, hh2⟩
    · intro e2 ent2 he2
      replace he2 : fupd σ.entries σ.next
          (some { text := s, hash := hf s, live := 1, plock := 0, pdec := 0 }) e2 = some ent2 := he2
      by_cases hee : e2 = σ.next
      · subst hee
        simp [fupd] at he2
        subst he2
        refine ⟨?_, ?_⟩
        · show (0 : Nat) ≤ 1
          omega
        · intro h1
          have h1' : (0 : Nat) = 1 := h1
          omega
      · simp [fupd, hee] at he2
        obtain ⟨hle2, hone2⟩ := hinv.plockInPool e2 ent2 he2
        refine ⟨hle2, fun h1 => ?_⟩
        have hpool2 := hone2 h1
        show fupd σ.pool s (some σ.next) ent2.text = some e2
        by_cases hts : ent2.text = s
        · rw [hts] at hpool2; rw [hp] at hpool2; exact Option.noConfusion hpool2
        · simpa [fupd, hts] using hpool2
    · intro e2 h2
      have h2a : σ.next + 1 ≤ e2 := h2
      have h2' : σ.next ≤ e2 := by omega
      have hne : e2 ≠ σ.next := by omega
      show fupd σ.entries σ.next _ e2 = none
      simp [fupd, hne, hinv.fresh e2 h2']
  | cloneHandle e ent he hl =>
    have hpool : σ.pool ent.text = some e := hinv.liveInPool e ent he (by omega)
    refine ⟨?_, WF_counterUpdate he rfl rfl hinv.poolWF, ?_, fresh_update (by simp [he]) hinv.fresh⟩
    · intro e2 ent2 he2 hl2
      replace he2 : fupd σ.entries e (some { ent with live := ent.live + 1 }) e2 = some ent2 := he2
      by_cases hee : e2 = e
      · subst hee
        simp [fupd] at he2
        subst he2
        exact hpool
      · simp [fupd, hee] at he2
        exact hinv.liveInPool e2 ent2 he2 hl2
    · intro e2 ent2 he2
      replace he2 : fupd σ.entries e (some { ent with live := ent.live + 1 }) e2 = some ent2 := he2
      by_cases hee : e2 = e
      · subst hee
        simp [fupd] at he2
        subst he2
        obtain ⟨hle, hone⟩ := hinv.plockInPool e2 ent he
        exact ⟨hle, fun hone1 => hone hone1⟩
      · simp [fupd, hee] at he2
        exact hinv.plockInPool e2 ent2 he2
  | dropReadFast e ent he hl hs =>
    refine ⟨?_, WF_counterUpdate he rfl rfl hinv.poolWF, ?_, fresh_update (by simp [he]) hinv.fresh⟩
    · intro e2 ent2 he2 hl2
      replace he2 : fupd σ.entries e
          (some { ent with live := ent.live - 1, pdec := ent.pdec + 1 }) e2 = some ent2 := he2
      by_cases hee : e2 = e
      · subst hee
        simp [fupd] at he2
        subst he2
        have hl2' : 0 < ent.live - 1 := hl2
        exact hinv.liveInPool e2 ent he (by omega)
      · simp [fupd, hee] at he2
        exact hinv.liveInPool e2 ent2 he2 hl2
    · intro e2 ent2 he2
      replace he2 : fupd σ.entries e
          (some { ent with live := ent.live - 1, pdec := ent.pdec + 1 }) e2 = some ent2 := he2
      by_cases hee : e2 = e
      · subst hee
        simp [fupd] at he2
        subst he2
        obtain ⟨hle, hone⟩ := hinv.plockInPool e2 ent he
        exact ⟨hle, fun hone1 => hone hone1⟩
      · simp [fupd, hee] at he2
        exact hinv.plockInPool e2 ent2 he2
  | dropReadSlow e ent he hl hs =>
    have hpool : σ.pool ent.text = some e := hinv.liveInPool e ent he (by omega)
    have hstrong := strongAt_eq σ e ent he
    rw [hpool] at hstrong
    simp at hstrong
    have hslow : ent.live = 1 ∧ ent.plock = 0 ∧ ent.pdec = 0 := by omega
    refine ⟨?_, WF_counterUpdate he rfl rfl hinv.poolWF, ?_, fresh_update (by simp [he]) hinv.fresh⟩
    · intro e2 ent2 he2 hl2
      replace he2 : fupd σ.entries e
          (some { ent with live := ent.live - 1, plock := ent.plock + 1 }) e2 = some ent2 := he2
      by_cases hee : e2 = e
      · subst hee
        simp [fupd] at he2
        subst he2
        have hl2' : 0 < ent.live - 1 := hl2
        omega
      · simp [fupd, hee] at he2
        exact hinv.liveInPool e2 ent2 he2 hl2
    · intro e2 ent2 he2
      replace he2 : fupd σ.entries e
          (some { ent with live := ent.live - 1, plock := ent.plock + 1 }) e2 = some ent2 := he2
      by_cases hee : e2 = e
      · subst hee
        simp [fupd] at he2
        subst he2
        refine ⟨?_, fun _ => hpool⟩
        show ent.plock + 1 ≤ 1
        omega
      · simp [fupd, hee] at he2
        exact hinv.plockInPool e2 ent2 he2
  | dropLockAbandon e ent he hl hs =>
    refine ⟨?_, WF_counterUpdate he rfl rfl hinv.poolWF, ?_, fresh_update (by simp [he]) hinv.fresh⟩
    · intro e2 ent2 he2 hl2
      replace he2 : fupd σ.entries e
          (some { ent with plock := ent.plock - 1, pdec := ent.pdec + 1 }) e2 = some ent2 := he2
      by_cases hee : e2 = e
      · subst hee
        simp [fupd] at he2
        subst he2
        have hl2' : 0 < ent.live := hl2
        exact hinv.liveInPool e2 ent he hl2'
      · simp [fupd, hee] at he2
        exact hinv.liveInPool e2 ent2 he2 hl2
    · intro e2 ent2 he2
      replace he2 : fupd σ.entries e
          (some { ent with plock := ent.plock - 1, pdec := ent.pdec + 1 }) e2 = some ent2 := he2
      by_cases hee : e2 = e
      · subst hee
        simp [fupd] at he2
        subst he2
        obtain ⟨hle, _⟩ := hinv.plockInPool e2 ent he
        refine ⟨?_, ?_⟩
        · show ent.plock - 1 ≤ 1
          omega
        · intro h1
          have h1' : ent.plock - 1 = 1 := h1
          omega
      · simp [fupd, hee] at he2
        exact hinv.plockInPool e2 ent2 he2
  | dropLockRemove e ent he hl hs =>
    obtain ⟨hle, hone⟩ := hinv.plockInPool e ent he
    have hpl : ent.plock = 1 := by omega
    have hpool := hone hpl
    have hstrong := strongAt_eq σ e ent he
    rw [hpool] at hstrong
    simp at hstrong
    have hrest : ent.live = 0 ∧ ent.pdec = 0 := by omega
    refine ⟨?_, ?_, ?_, ?_⟩
    · intro e2 ent2 he2 hl2
      replace he2 : fupd σ.entries e
          (some { ent with plock := ent.plock - 1, pdec := ent.pdec + 1 }) e2 = some ent2 := he2
      by_cases hee : e2 = e
      · subst hee
        simp [fupd] at he2
        subst he2
        have hl2' : 0 < ent.live := hl2
        omega
      · simp [fupd, hee] at he2
        have hpool2 := hinv.liveInPool e2 ent2 he2 hl2
        show fupd σ.pool ent.text none ent2.text = some e2
        by_cases htt : ent2.text = ent.text
        · rw [htt] at hpool2
          rw [hpool] at hpool2
          exact absurd (Option.some.inj hpool2).symm hee
        · simpa [fupd, htt] using hpool2
    · intro s2 e2 hp2
      replace hp2 : fupd σ.pool ent.text none s2 = some e2 := hp2
      by_cases hss : s2 = ent.text
      · simp [fupd, hss] at hp2
      · simp [fupd, hss] at hp2
        obtain ⟨ent2, he2, ht2, hh2⟩ := hinv.poolWF s2 e2 hp2
        have hee : e2 ≠ e := by
          intro hEq
          subst hEq
          rw [he] at he2
          have := Option.some.inj he2
          rw [← this] at ht2
          exact hss (ht2.symm)
        exact ⟨ent2, by simpa [fupd, hee] using he2, ht2, hh2⟩
    · intro e2 ent2 he2
      replace he2 : fupd σ.entries e
          (some { ent with plock := ent.plock - 1, pdec := ent.pdec + 1 }) e2 = some ent2 := he2
      by_cases hee : e2 = e
      · subst hee
        simp [fupd] at he2
        subst he2
        refine ⟨?_, ?_⟩
        · show ent.plock - 1 ≤ 1
          omega
        · intro h1
          have h1' : ent.plock - 1 = 1 := h1
          omega
      · simp [fupd, hee] at he2
        obtain ⟨hle2, hone2⟩ := hinv.plockInPool e2 ent2 he2
        refine ⟨hle2, fun h1 => ?_⟩
        have hpool2 := hone2 h1
        show fupd σ.pool ent.text none ent2.text = some e2
        by_cases htt : ent2.text = ent.text
        · rw [htt] at hpool2
          rw [hpool] at hpool2
          exact absurd (Option.some.inj hpool2).symm hee
        · simpa [fupd, htt] using hpool2
    · exact fresh_update (by simp [he]) hinv.fresh
  | dropDec e ent he hl =>
    refine ⟨?_, WF_counterUpdate he rfl rfl hinv.poolWF, ?_, fresh_update (by simp [he]) hinv.fresh⟩
    · intro e2 ent2 he2 hl2
      replace he2 : fupd σ.entries e
          (some { ent with pdec := ent.pdec - 1 }) e2 = some ent2 := he2
      by_cases hee : e2 = e
      · subst hee
        simp [fupd] at he2
        subst he2
        have hl2' : 0 < ent.live := hl2
        exact hinv.liveInPool e2 ent he hl2'
      · simp [fupd, hee] at he2
        exact hinv.liveInPool e2 ent2 he2 hl2
    · intro e2 ent2 he2
      replace he2 : fupd σ.entries e
          (some { ent with pdec := ent.pdec - 1 }) e2 = some ent2 := he2
      by_cases hee : e2 = e
      · subst hee
        simp [fupd] at he2
        subst he2
        obtain ⟨hle, hone⟩ := hinv.plockInPool e2 ent he
        exact ⟨hle, fun hone1 => hone hone1⟩
      · simp [fupd, hee] at he2
        exact hinv.plockInPool e2 ent2 he2

theorem reach_inv (hf : String → Nat) (σ : PState) (h : Reach hf σ) : Inv hf σ := by
  induction h with
  | refl => exact Inv_initState hf
  | tail _ hstep ih => exact inv_step hf _ _ ih hstep

/-- C8: in every state reachable under any interleaving of create/clone/release
micro-steps (with release modelled exactly as in the source, including the
re-validation of the strong count inside the `remove_if` critical section before
unlinking), no entry with a positive live-handle count is missing from the pool
map, and no two distinct entries for the same content both carry live handles. -/
theorem lifecycle_never_loses_live_entry (hf : String → Nat) (σ : PState)
    (h : Reach hf σ) :
    (∀ e ent, σ.entries e = some ent → 0 < ent.live → σ.pool ent.text = some e) ∧
    (∀ e1 e2 ent1 ent2, σ.entries e1 = some ent1 → σ.entries e2 = some ent2 →
      ent1.text = ent2.text → 0 < ent1.live → 0 < ent2.live → e1 = e2) := by
  have hinv := reach_inv hf σ h
  refine ⟨hinv.liveInPool, ?_⟩
  intro e1 e2 ent1 ent2 h1 h2 ht hl1 hl2
  have p1 := hinv.liveInPool e1 ent1 h1 hl1
  have p2 := hinv.liveInPool e2 ent2 h2 hl2
  rw [ht] at p1
  rw [p2] at p1
  exact (Option.some.inj p1).symm

/-- A sample one-step execution: the state after a single `create "a"` from the
empty pool, with the hashing utility fixed to the constant 5. -/
def oneCreateState : PState :=
  { entries := fupd initState.entries initState.next
      (some { text := "a", hash := 5, live := 1, plock := 0, pdec := 0 }),
    pool := fupd initState.pool "a" (some initState.next),
    hmap := fupd initState.hmap 5 (some initState.next),
    next := initState.next + 1 }

theorem lifecycle_never_loses_live_entry_witness : oneCreateState.pool "a" = some 0 :=
  (lifecycle_never_loses_live_entry (fun _ => 5) oneCreateState
      (Relation.ReflTransGen.single (Step.createNew initState "a" rfl))).1
    0 { text := "a", hash := 5, live := 1, plock := 0, pdec := 0 } rfl (by decide)

/-- A pool state holding one dead entry (id 0, all counters zero, unpooled) whose
stale weak record is still registered in `HASH_MAP` under hash 7. -/
def deadRecordState : PState :=
  { entries := fupd (fun _ => none) 0 (some { text := "y", hash := 7, live := 0, plock := 0, pdec := 0 }),
    pool := fun _ => none,
    hmap := fupd (fun _ => none) 7 (some 0),
    next := 1 }

theorem create_returns_input_text_witness :
    ((Atom.create (fun _ => 1) initState "afg").2).as_str = "afg" :=
  create_returns_input_text (fun _ => 1) initState "afg" (WF_initState _)

theorem handles_equal_iff_equal_text_witness :
    (Atom.eqv ⟨0, "x", 1⟩ ⟨0, "x", 1⟩ ↔ ("x" : String) = "x") ∧
    ((Atom.create (fun _ => 1) initState "x").2).eqv
      ((Atom.create (fun _ => 1) (Atom.create (fun _ => 1) initState "x").1 "x").2) ∧
    ((Atom.create (fun _ => 1) initState "x").2).as_str
      = ((Atom.create (fun _ => 1) (Atom.create (fun _ => 1) initState "x").1 "x").2).as_str :=
  handles_equal_iff_equal_text (fun _ => 1) initState "x" ⟨0, "x", 1⟩ ⟨0, "x", 1⟩ rfl rfl
    (WF_initState _)

theorem get_by_hash_live_only_witness : (get_by_hash deadRecordState 7).2 = none :=
  (get_by_hash_live_only deadRecordState 7).2.2 0 rfl rfl

theorem collect_purges_dead_records_witness :
    (get_by_hash (collect deadRecordState) 7).2 = none :=
  (collect_purges_dead_records (fun _ => 7) deadRecordState "y").2 (Or.inr ⟨0, rfl, rfl⟩)

theorem store_weak_keys_cached_hash_witness :
    (store_weak_by_hash initState ⟨0, "z", 3⟩).hmap 3 = some 0 :=
  (store_weak_keys_cached_hash initState ⟨0, "z", 3⟩).1

theorem serialize_roundtrip_witness :
    encodeAtom ⟨0, "w", 4⟩ = Atom.as_str ⟨0, "w", 4⟩ ∧
    ((decodeAtom (fun _ => 4) initState (encodeAtom ⟨0, "w", 4⟩)).2).eqv ⟨0, "w", 4⟩ :=
  serialize_roundtrip (fun _ => 4) initState ⟨0, "w", 4⟩ (WF_initState _) rfl

theorem create_registers_hash_record_witness :
    (get_by_hash (Atom.create (fun _ => 9) initState "q").1 9).2 = some ⟨0, "q", 9⟩ :=
  create_registers_hash_record (fun _ => 9) initState "q" rfl

theorem default_atom_anomaly_witness :
    Atom.defaultAtom.text = "" ∧ Atom.defaultAtom.hash = 0 ∧
    Atom.defaultAtom.as_str = ((Atom.create (fun _ => 1) initState "").2).as_str ∧
    ¬ Atom.defaultAtom.eqv ((Atom.create (fun _ => 1) initState "").2) ∧
    Atom.defaultAtom.hashValue ≠ ((Atom.create (fun _ => 1) initState "").2).hashValue :=
  default_atom_anomaly (fun _ => 1) initState (WF_initState _) (by decide)

end PiAtom
